import Mathlib

/-!
# go-httpmount: the remote-file read path

A shallow embedding of `main.go` (package `main`): the probe (`mountFile`), the
attribute report (`httpFile.Getattr`), the ranged read (`httpFile.Read`) and the
attach callback (`HttpRoot.OnAdd`).

Conventions of the embedding.

* Go `int64` values are `Int`s kept in `[-2^63, 2^63)`; every `int64` operation of the
  source is followed by `wrapInt64`.  Go `uint64` values are `Nat`s below `2^64`; every
  `uint64` operation is taken `% 2^64`.
* `log.Fatal` / `log.Fatalf` print a message and end the process with `os.Exit(1)`.  A
  function that may reach them returns an `Outcome`: either `ret v` (the Go function
  returned `v`) or `fatal msg` (the process was terminated, nothing is returned).
* The network is a function from requests to the result of `(*http.Client).Do`: either
  a transport error or a response, whose body is in turn the result of `io.ReadAll`.
* `time.Now().Unix()` is an argument of `Getattr`.
-/

namespace HttpMount

/-! ## Machine integers -/

/-- Largest `int64`. -/
def maxInt64 : Int := 2 ^ 63 - 1

/-- Two's-complement reduction of an integer to the `int64` range. -/
def wrapInt64 (x : Int) : Int := (x + 2 ^ 63) % 2 ^ 64 - 2 ^ 63

/-- Go conversion `uint64(x)` of an `int64` value. -/
def toUint64 (x : Int) : Nat := (x % 2 ^ 64).toNat

/-! ## Process outcomes -/

/-- Result of running a Go function that may call `log.Fatal`. -/
inductive Outcome (α : Type) where
  /-- The function returned normally. -/
  | ret : α → Outcome α
  /-- A call of `log.Fatal`/`log.Fatalf` logged the message and exited the process. -/
  | fatal : String → Outcome α
  deriving DecidableEq

/-- Equality of results of fallible library calls is decidable. -/
instance instDecidableEqExcept {ε α : Type} [DecidableEq ε] [DecidableEq α] :
    DecidableEq (Except ε α)
  | .ok a, .ok b => if h : a = b then isTrue (by rw [h]) else isFalse (by intro e; cases e; exact h rfl)
  | .error a, .error b =>
    if h : a = b then isTrue (by rw [h]) else isFalse (by intro e; cases e; exact h rfl)
  | .ok _, .error _ => isFalse (by intro e; cases e)
  | .error _, .ok _ => isFalse (by intro e; cases e)

/-- Whether the function returned to its caller. -/
def Outcome.returned {α : Type} : Outcome α → Bool
  | .ret _ => true
  | .fatal _ => false

/-! ## `net/http` values -/

/-- One octet of a body. -/
abbrev Byte := Fin 256

/-- Go `http.Header`: a map from canonical header names to their values
(an absent key maps to no value). -/
abbrev Header := String → List String

/-- No header set. -/
def Header.empty : Header := fun _ => []

/-- Go `Header.Get`: the first value of the key, the empty string when there is none.
Both keys used by the program are already in canonical form. -/
def Header.Get (h : Header) (key : String) : String :=
  match h key with
  | [] => ""
  | v :: _ => v

/-- Go `Header.Set`: replace the values of the key by the single given value. -/
def Header.Set (h : Header) (key value : String) : Header :=
  fun k => if k = key then [value] else h k

/-- Go `http.Request`, the fields the program sets. -/
structure Request where
  Method : String
  URL : String
  Header : Header

/-- Go `http.NewRequest(method, url, nil)`. -/
def NewRequest (method url : String) : Request :=
  ⟨method, url, Header.empty⟩

/-- Go `http.Response`, the fields the program reads.  `Body` is what `io.ReadAll`
yields on the body stream: the bytes, or the error of the failed read. -/
structure Response where
  StatusCode : Int
  Header : Header
  Body : Except String (List Byte)

/-- Go `*http.Client` seen through `Do`: a transport error or a response. -/
abbrev Client := Request → Except String Response

/-- Go `(*http.Client).Get(url)`. -/
def Client.Get (c : Client) (url : String) : Except String Response :=
  c (NewRequest "GET" url)

/-! ## `strconv` and `fmt` -/

namespace strconv

/-- The two kinds of `strconv.NumError`. -/
inductive NumError where
  | ErrSyntax
  | ErrRange
  deriving DecidableEq, Repr

/-- Loop of `strconv.ParseUint(s, 10, 64)` over the remaining characters, `n` being
the value accumulated so far; the result is the pair `(value, error)` that Go returns.
A character that is not a decimal digit is a syntax error (letters denote digits
`>= 10 = base`); `n >= cutoff` with `cutoff = maxUint64/10 + 1`, and a wrapped or too
large `n*10 + d`, are range errors returned with the value `maxVal = 2^64 - 1`. -/
def parseUintLoop : List Char → Nat → Nat × Option NumError
  | [], n => (n, none)
  | c :: cs, n =>
    if '0' ≤ c ∧ c ≤ '9' then
      let d := c.toNat - '0'.toNat
      if n ≥ (2 ^ 64 - 1) / 10 + 1 then (2 ^ 64 - 1, some .ErrRange)
      else
        let n10 := (n * 10) % 2 ^ 64
        let n1 := (n10 + d) % 2 ^ 64
        if n1 < n10 ∨ n1 > 2 ^ 64 - 1 then (2 ^ 64 - 1, some .ErrRange)
        else parseUintLoop cs n1
    else (0, some .ErrSyntax)

/-- Go `strconv.ParseUint(s, 10, 64)` on the characters of `s`. -/
def ParseUint (s : List Char) : Nat × Option NumError :=
  if s = [] then (0, some .ErrSyntax) else parseUintLoop s 0

/-- Go `strconv.ParseInt(s, 10, 64)`: an optional sign `+` or `-` is picked off, the
rest goes through `ParseUint`; an error other than a range error is returned as it is,
and the magnitude must be below `cutoff = 2^63` (at most `2^63` after `-`). -/
def ParseInt (s : String) : Except NumError Int :=
  match s.toList with
  | [] => .error .ErrSyntax
  | c :: cs =>
    let neg := decide (c = '-')
    let rest := if c = '+' then cs else if c = '-' then cs else c :: cs
    match ParseUint rest with
    | (_, some .ErrSyntax) => .error .ErrSyntax
    | (un, _) =>
      if neg = false ∧ un ≥ 2 ^ 63 then .error .ErrRange
      else if neg = true ∧ un > 2 ^ 63 then .error .ErrRange
      else
        let n := wrapInt64 un
        .ok (if neg then wrapInt64 (-n) else n)

/-- Text of the error returned by `ParseInt`, as `log.Fatal` prints it. -/
def NumError.Error (s : String) : NumError → String
  | .ErrSyntax => "strconv.ParseInt: parsing \"" ++ s ++ "\": invalid syntax"
  | .ErrRange => "strconv.ParseInt: parsing \"" ++ s ++ "\": value out of range"

end strconv

/-- Go verb `%d` on an integer: decimal digits, preceded by `-` when negative. -/
def fmtD (x : Int) : String := toString x

/-- Go `fmt.Sprintf("bytes=%d-%d", a, b)`. -/
def sprintfRange (a b : Int) : String :=
  "bytes=" ++ fmtD a ++ "-" ++ fmtD b

/-- Go `fmt.Sprintf("status code was not partial content: %d", code)`. -/
def sprintfStatus (code : Int) : String :=
  "status code was not partial content: " ++ fmtD code

/-! ## The program -/

/-- Go `syscall.Errno`. -/
abbrev Errno := Nat

/-- Go `fuse.AttrOut`, the fields `Getattr` writes (all unsigned). -/
structure AttrOut where
  Mode : Nat
  Nlink : Nat
  Mtime : Nat
  Atime : Nat
  Ctime : Nat
  Size : Nat
  Blksize : Nat
  Blocks : Nat
  deriving DecidableEq, Repr

/-- Go `type httpFile struct`. -/
structure httpFile where
  url : String
  size : Int
  client : Client

/-- Constant `bs` of `httpFile.Getattr`. -/
def bs : Nat := 128 * 1024

/-- Go `func (hf *httpFile) Getattr`; `now` is `time.Now().Unix()`. -/
def httpFile.Getattr (hf : httpFile) (now : Int) (out : AttrOut) : AttrOut × Errno :=
  let out := { out with Mode := 0o7777 }
  let out := { out with Nlink := 1 }
  let out := { out with Mtime := toUint64 now }
  let out := { out with Atime := out.Mtime }
  let out := { out with Ctime := out.Mtime }
  let out := { out with Size := toUint64 hf.size }
  let out := { out with Blksize := bs }
  let out := { out with Blocks := ((out.Size + bs - 1) % 2 ^ 64) / bs }
  (out, 0)

/-- Go `func (hf *httpFile) Open`: no file handle, no flags, no error. -/
def httpFile.Open (_hf : httpFile) (_flags : Nat) : Option Unit × Nat × Errno :=
  (none, 0, 0)

/-- Lines 53-56 of `httpFile.Read`: the exclusive end of the interval, the `int64` sum
of offset and buffer length, replaced by the size when it exceeds the size. -/
def httpFile.readEnd (hf : httpFile) (destLen : Nat) (off : Int) : Int :=
  let end_ := wrapInt64 (wrapInt64 off + wrapInt64 destLen)
  if end_ > hf.size then hf.size else end_

/-- Lines 51-58 of `httpFile.Read`: the request that is sent. -/
def httpFile.readRequest (hf : httpFile) (destLen : Nat) (off : Int) : Request :=
  let req := NewRequest "GET" hf.url
  let end_ := hf.readEnd destLen off
  { req with Header := req.Header.Set "Range" (sprintfRange off (wrapInt64 (end_ - 1))) }

/-- The `Range` header of the request `httpFile.Read` sends. -/
def httpFile.readRange (hf : httpFile) (destLen : Nat) (off : Int) : String :=
  (hf.readRequest destLen off).Header.Get "Range"

/-- Go `func (hf *httpFile) Read`; `destLen` is `len(dest)`.  The three failure paths
are the three `log.Fatal` calls of the source; the only `return` carries errno 0.  (The
error of `http.NewRequest` is discarded by the source; the URL is the one the probe
has already fetched.) -/
def httpFile.Read (hf : httpFile) (destLen : Nat) (off : Int) : Outcome (List Byte × Errno) :=
  match hf.client (hf.readRequest destLen off) with
  | .error err => .fatal err
  | .ok resp =>
    if resp.StatusCode ≠ 206 then .fatal (sprintfStatus resp.StatusCode)
    else
      match resp.Body with
      | .error err => .fatal err
      | .ok bytes => .ret (bytes, 0)

/-- Go `func mountFile(url string) *httpFile`; `net` is the network the freshly built
client talks to (the transport settings do not change what a request is answered). -/
def mountFile (net : Client) (url : String) : Outcome httpFile :=
  match Client.Get net url with
  | .error err => .fatal err
  | .ok rsp =>
    if rsp.Header.Get "Accept-Ranges" ≠ "bytes" then
      .fatal "server does not accept range bytes"
    else
      match strconv.ParseInt (rsp.Header.Get "Content-Length") with
      | .error e => .fatal (e.Error (rsp.Header.Get "Content-Length"))
      | .ok contentLen => .ret { url := url, size := contentLen, client := net }

/-- A child of the root inode: its name, its stable inode number and the file. -/
structure Child where
  name : String
  Ino : Nat
  file : httpFile

/-- Go `type HttpRoot struct`; `children` is the child table of the embedded `fs.Inode`. -/
structure HttpRoot where
  url : String
  children : List Child

/-- Go `r.AddChild(name, ch, false)` of the embedded `fs.Inode`: without overwrite, a
name that is already taken is left as it is. -/
def HttpRoot.AddChild (r : HttpRoot) (ch : Child) : HttpRoot :=
  if r.children.any (fun c => c.name = ch.name) then r
  else { r with children := r.children ++ [ch] }

/-- Go `func (r *HttpRoot) OnAdd`: probe, then register the file as `test.iso`. -/
def HttpRoot.OnAdd (r : HttpRoot) (net : Client) : Outcome HttpRoot :=
  match mountFile net r.url with
  | .fatal msg => .fatal msg
  | .ret httpfile =>
    let ch : Child := ⟨"test.iso", 2, httpfile⟩
    .ret (r.AddChild ch)

/-- Go `func (r *HttpRoot) Getattr`. -/
def HttpRoot.Getattr (_r : HttpRoot) (out : AttrOut) : AttrOut × Errno :=
  ({ out with Mode := 0o755 }, 0)

/-- Go `fs.Options`, the fields `main` sets. -/
structure Options where
  Name : String
  Debug : Bool
  ExplicitDataCacheControl : Bool
  MaxReadAhead : Nat
  deriving DecidableEq, Repr

/-- Lines 145-149 of `main`: the mount options. -/
def mainOptions (debug : Bool) : Options :=
  { Name := "go-httpmount", Debug := debug, ExplicitDataCacheControl := true,
    MaxReadAhead := 1024 * 128 }

/-! ## Decimal texts -/

/-- Value of a sequence of decimal digits, most significant first, continuing from `n`. -/
def decimalValue (cs : List Char) (n : Nat) : Nat :=
  cs.foldl (fun n c => n * 10 + (c.toNat - '0'.toNat)) n

/-- The text `s` is the decimal writing of the integer `v` of the `int64` range: an
optional sign `+` or `-`, then at least one decimal digit (leading zeros allowed). -/
def IsInt64Text (s : String) (v : Int) : Prop :=
  ∃ digits : List Char, digits ≠ [] ∧ (∀ c ∈ digits, '0' ≤ c ∧ c ≤ '9') ∧
    (((s.toList = digits ∨ s.toList = '+' :: digits) ∧
        v = decimalValue digits 0 ∧ decimalValue digits 0 < 2 ^ 63) ∨
      (s.toList = '-' :: digits ∧
        v = -(decimalValue digits 0 : Int) ∧ decimalValue digits 0 ≤ 2 ^ 63))

/-! ## Origin servers -/

/-- Value of a non-empty string of decimal digits. -/
def parseDigits (cs : List Char) : Option Nat :=
  if cs = [] ∨ ¬ cs.all Char.isDigit then none
  else some (decimalValue cs 0)

/-- A `Range` header value of the form `bytes=<first>-<last>`, both positions given. -/
def parseRange (h : String) : Option (Nat × Nat) :=
  match h.toList with
  | 'b' :: 'y' :: 't' :: 'e' :: 's' :: '=' :: rest =>
    match rest.span Char.isDigit with
    | (a, '-' :: b) =>
      match parseDigits a, parseDigits b with
      | some x, some y => some (x, y)
      | _, _ => none
    | _ => none
  | _ => none

/-- The `i`-th to `j`-th bytes (inclusive) of the content. -/
def slice (content : List Byte) (i j : Nat) : List Byte :=
  (content.drop i).take (j + 1 - i)

/-- A static origin serving `content` by the rules of HTTP range requests: a
well-formed range `first <= last` that starts inside the content is answered 206 with
the bytes `first .. min last (size-1)`; one that starts at or after the end is answered
416; a header that is no valid range (absent, malformed, or `last < first`) is ignored
and the whole content is sent with status 200. -/
def rangeOrigin (content : List Byte) : Client := fun req =>
  match parseRange (req.Header.Get "Range") with
  | some (a, b) =>
    if a ≤ b then
      if a < content.length then
        .ok ⟨206, Header.empty, .ok (slice content a (min b (content.length - 1)))⟩
      else .ok ⟨416, Header.empty, .ok []⟩
    else .ok ⟨200, Header.empty, .ok content⟩
  | none => .ok ⟨200, Header.empty, .ok content⟩

/-- A `GET` of `url` with the header `Range: bytes=<a>-<b>`. -/
def rangeRequest (url : String) (a b : Int) : Request :=
  { NewRequest "GET" url with
    Header := (NewRequest "GET" url).Header.Set "Range" (sprintfRange a b) }

/-- The origin answers every range inside the content as the range protocol asks:
`Range: bytes=<a>-<b>` with `a <= b < size` gets status 206 and exactly the bytes
`a .. b`, read without error. -/
def Conforming (c : Client) (url : String) (content : List Byte) : Prop :=
  ∀ a b : Nat, a ≤ b → b < content.length →
    ∃ resp, c (rangeRequest url a b) = .ok resp ∧
      resp.StatusCode = 206 ∧ resp.Body = .ok (slice content a b)

/-- An origin whose answer to every request is status 200, an empty body, and the given
values (none when the list is empty) of `Accept-Ranges` and `Content-Length`. -/
def headerOrigin (acceptRanges contentLength : List String) : Client := fun _ =>
  .ok ⟨200, fun k => if k = "Accept-Ranges" then acceptRanges
                    else if k = "Content-Length" then contentLength else [], .ok []⟩

/-- An origin on which every exchange fails in the transport with the given error. -/
def brokenOrigin (err : String) : Client := fun _ => .error err

/-- An attribute record with every field zero. -/
def AttrOut.zero : AttrOut := ⟨0, 0, 0, 0, 0, 0, 0, 0⟩

/-- A file of the given size served by `rangeOrigin content`. -/
def fileOn (content : List Byte) (size : Int) : httpFile :=
  ⟨"http://origin/test.iso", size, rangeOrigin content⟩

/-- A content of `2^63 - 1` zero bytes, the largest size an `int64` can hold. -/
def bigContent : List Byte := List.replicate 9223372036854775807 0

/-! ## Lemmas -/

theorem wrapInt64_of_range {x : Int} (h1 : -2 ^ 63 ≤ x) (h2 : x < 2 ^ 63) : wrapInt64 x = x := by
  unfold wrapInt64
  omega

/-- Without wrap-around the end computed by `Read` is the smaller of `off + len` and the size. -/
theorem readEnd_eq_min (hf : httpFile) (destLen : Nat) (off : Int) (h0 : 0 ≤ off)
    (hsum : off + destLen ≤ maxInt64) :
    hf.readEnd destLen off = min (off + destLen) hf.size := by
  unfold maxInt64 at hsum
  have e1 : wrapInt64 off = off := wrapInt64_of_range (by omega) (by omega)
  have e2 : wrapInt64 (destLen : Int) = destLen := wrapInt64_of_range (by omega) (by omega)
  have e3 : wrapInt64 (off + destLen) = off + destLen := wrapInt64_of_range (by omega) (by omega)
  simp only [httpFile.readEnd, e1, e2, e3]
  split <;> omega

theorem readRequest_eq (hf : httpFile) (destLen : Nat) (off : Int) :
    hf.readRequest destLen off =
      rangeRequest hf.url off (wrapInt64 (hf.readEnd destLen off - 1)) := rfl

theorem readRange_eq (hf : httpFile) (destLen : Nat) (off : Int) :
    hf.readRange destLen off = sprintfRange off (wrapInt64 (hf.readEnd destLen off - 1)) := by
  simp [httpFile.readRange, httpFile.readRequest, Header.Get, Header.Set]

theorem digit_toNat {c : Char} (h : '0' ≤ c ∧ c ≤ '9') : 48 ≤ c.toNat ∧ c.toNat ≤ 57 := by
  obtain ⟨h1, h2⟩ := h
  have a1 : ('0' : Char).toNat ≤ c.toNat := h1
  have a2 : c.toNat ≤ ('9' : Char).toNat := h2
  have b1 : ('0' : Char).toNat = 48 := by decide
  have b2 : ('9' : Char).toNat = 57 := by decide
  omega

/-- A successful `ParseUint` loop has read decimal digits only and returns their value
(continued from the accumulator), which fits 64 bits. -/
theorem parseUintLoop_ok (cs : List Char) : ∀ (n v : Nat), n < 2 ^ 64 →
    strconv.parseUintLoop cs n = (v, none) →
    (∀ c ∈ cs, '0' ≤ c ∧ c ≤ '9') ∧ v = decimalValue cs n ∧ v < 2 ^ 64 := by
  induction cs with
  | nil =>
    intro n v hn h
    simp only [strconv.parseUintLoop, Prod.mk.injEq, and_true] at h
    subst h
    exact ⟨by simp, by simp [decimalValue], hn⟩
  | cons c cs ih =>
    intro n v hn h
    unfold strconv.parseUintLoop at h
    split at h
    · rename_i hc
      have hd := digit_toNat hc
      have h48 : ('0' : Char).toNat = 48 := by decide
      simp only [h48] at h
      split at h
      · simp at h
      · rename_i hcut
        split at h
        · simp at h
        · rename_i hwrap
          have hn10 : n * 10 % 2 ^ 64 = n * 10 := by omega
          rw [hn10] at h hwrap
          have hn1 : (n * 10 + (c.toNat - 48)) % 2 ^ 64 = n * 10 + (c.toNat - 48) := by omega
          rw [hn1] at h
          obtain ⟨hall, hv, hlt⟩ := ih (n * 10 + (c.toNat - 48)) v (by omega) h
          refine ⟨?_, ?_, hlt⟩
          · intro x hx
            rcases List.mem_cons.mp hx with rfl | hx
            · exact hc
            · exact hall x hx
          · simpa [decimalValue, h48] using hv
    · simp at h

/-- A range error of the `ParseUint` loop comes with the value `2^64 - 1`. -/
theorem parseUintLoop_range (cs : List Char) : ∀ (n v : Nat),
    strconv.parseUintLoop cs n = (v, some .ErrRange) → v = 2 ^ 64 - 1 := by
  induction cs with
  | nil => intro n v h; simp [strconv.parseUintLoop] at h
  | cons c cs ih =>
    intro n v h
    unfold strconv.parseUintLoop at h
    split at h
    · split at h
      · simp only [Prod.mk.injEq, and_true] at h; exact h.symm
      · dsimp only at h
        split at h
        · simp only [Prod.mk.injEq, and_true] at h; exact h.symm
        · exact ih _ _ h
    · simp at h

/-- The three ways `ParseUint` ends. -/
theorem ParseUint_cases {cs : List Char} {un : Nat} {e : Option strconv.NumError}
    (h : strconv.ParseUint cs = (un, e)) :
    e = some .ErrSyntax ∨ (e = some .ErrRange ∧ un = 2 ^ 64 - 1) ∨
      (e = none ∧ cs ≠ [] ∧ (∀ c ∈ cs, '0' ≤ c ∧ c ≤ '9') ∧
        un = decimalValue cs 0 ∧ un < 2 ^ 64) := by
  unfold strconv.ParseUint at h
  split at h
  · simp only [Prod.mk.injEq] at h; exact Or.inl h.2.symm
  · rename_i hne
    match e, h with
    | none, h =>
      obtain ⟨h1, h2, h3⟩ := parseUintLoop_ok cs 0 un (by norm_num) h
      exact Or.inr (Or.inr ⟨rfl, hne, h1, h2, h3⟩)
    | some .ErrSyntax, _ => exact Or.inl rfl
    | some .ErrRange, h => exact Or.inr (Or.inl ⟨rfl, parseUintLoop_range cs 0 un h⟩)

/-- What `ParseInt` accepts: an optional sign followed by at least one decimal digit,
with the value of the digits below `2^63` (at most `2^63` after `-`); the result is
that value with its sign. -/
theorem ParseInt_ok {s : String} {v : Int} (h : strconv.ParseInt s = .ok v) :
    IsInt64Text s v := by
  unfold IsInt64Text
  unfold strconv.ParseInt at h
  split at h
  · simp at h
  · rename_i c cs hs
    simp only at h
    split at h
    · simp at h
    · rename_i un e hne hpu
      rcases ParseUint_cases hpu with he | ⟨he, hun⟩ | ⟨he, hne2, hall, hval, hlt⟩
      · exact (hne he).elim
      · subst hun
        by_cases hneg : c = '-' <;> simp [hneg] at h
      · by_cases hplus : c = '+'
        · have hneg : ¬ c = '-' := by rw [hplus]; decide
          simp only [hplus, if_true] at hne2 hall hval
          simp only [hneg, decide_False, true_and, Bool.false_eq_true, false_and, if_false] at h
          split at h
          · simp at h
          · rename_i hb
            have hv : wrapInt64 (un : Int) = un := wrapInt64_of_range (by omega) (by omega)
            rw [hv] at h
            have hv2 : v = (un : Int) := by
              simp only [Except.ok.injEq] at h; exact h.symm
            refine ⟨cs, hne2, hall, Or.inl ⟨Or.inr (by rw [hs, hplus]), ?_, ?_⟩⟩
            · rw [hv2, hval]
            · rw [← hval]; omega
        · by_cases hneg : c = '-'
          · have hrest : (if c = '+' then cs else if c = '-' then cs else c :: cs) = cs := by
              simp [hneg]
            rw [hrest] at hne2 hall hval
            simp only [hneg, decide_True, true_and, Bool.true_eq_false, false_and, if_false,
              if_true] at h
            split at h
            · simp at h
            · rename_i hb
              have hv2 : v = -(un : Int) := by
                simp only [Except.ok.injEq] at h
                rw [← h]
                unfold wrapInt64
                omega
              refine ⟨cs, hne2, hall, Or.inr ⟨by rw [hs, hneg], ?_, ?_⟩⟩
              · rw [hv2, hval]
              · rw [← hval]; omega
          · simp only [hplus, hneg, if_false] at hne2 hall hval
            simp only [hneg, decide_False, true_and, Bool.false_eq_true, false_and, if_false] at h
            split at h
            · simp at h
            · rename_i hb
              have hv : wrapInt64 (un : Int) = un := wrapInt64_of_range (by omega) (by omega)
              rw [hv] at h
              have hv2 : v = (un : Int) := by
                simp only [Except.ok.injEq] at h; exact h.symm
              refine ⟨c :: cs, hne2, hall, Or.inl ⟨Or.inl hs, ?_, ?_⟩⟩
              · rw [hv2, hval]
              · rw [← hval]; omega

theorem decimalValue_cons (c : Char) (cs : List Char) (n : Nat) :
    decimalValue (c :: cs) n = decimalValue cs (n * 10 + (c.toNat - 48)) := by
  have h48 : ('0' : Char).toNat = 48 := by decide
  simp [decimalValue, h48]

theorem le_decimalValue (cs : List Char) : ∀ n : Nat, n ≤ decimalValue cs n := by
  induction cs with
  | nil => intro n; simp [decimalValue]
  | cons c cs ih =>
    intro n
    rw [decimalValue_cons]
    have := ih (n * 10 + (c.toNat - 48))
    omega

/-- On decimal digits whose value fits 64 bits the `ParseUint` loop returns that value. -/
theorem parseUintLoop_complete (cs : List Char) : ∀ n : Nat,
    (∀ c ∈ cs, '0' ≤ c ∧ c ≤ '9') → decimalValue cs n < 2 ^ 64 →
    strconv.parseUintLoop cs n = (decimalValue cs n, none) := by
  induction cs with
  | nil => intro n _ _; simp [strconv.parseUintLoop, decimalValue]
  | cons c cs ih =>
    intro n hall hlt
    have hc := hall c (List.mem_cons_self c cs)
    have hd := digit_toNat hc
    have h48 : ('0' : Char).toNat = 48 := by decide
    rw [decimalValue_cons] at hlt ⊢
    have hle := le_decimalValue cs (n * 10 + (c.toNat - 48))
    have hn10 : n * 10 % 2 ^ 64 = n * 10 := by omega
    have hn1 : (n * 10 + (c.toNat - 48)) % 2 ^ 64 = n * 10 + (c.toNat - 48) := by omega
    unfold strconv.parseUintLoop
    rw [if_pos hc]
    simp only [h48, hn10, hn1]
    rw [if_neg (by omega), if_neg (by omega)]
    exact ih _ (fun x hx => hall x (List.mem_cons_of_mem c hx)) hlt

theorem ParseUint_complete {cs : List Char} (hne : cs ≠ [])
    (hall : ∀ c ∈ cs, '0' ≤ c ∧ c ≤ '9') (hlt : decimalValue cs 0 < 2 ^ 64) :
    strconv.ParseUint cs = (decimalValue cs 0, none) := by
  unfold strconv.ParseUint
  rw [if_neg hne]
  exact parseUintLoop_complete cs 0 hall hlt

theorem ParseInt_complete {s : String} {v : Int} (h : IsInt64Text s v) :
    strconv.ParseInt s = .ok v := by
  obtain ⟨digits, hne, hall, h⟩ := h
  rcases h with ⟨hs, hv, hlt⟩ | ⟨hs, hv, hle⟩
  · have hpu := ParseUint_complete hne hall (by omega)
    have hw : wrapInt64 (decimalValue digits 0 : Int) = decimalValue digits 0 :=
      wrapInt64_of_range (by omega) (by omega)
    rcases hs with hs | hs
    · cases digits with
      | nil => exact absurd rfl hne
      | cons c cs =>
        have hd := digit_toNat (hall c (List.mem_cons_self c cs))
        have hp : ¬ c = '+' := by
          intro e; rw [e] at hd; revert hd; decide
        have hm : ¬ c = '-' := by
          intro e; rw [e] at hd; revert hd; decide
        unfold strconv.ParseInt
        rw [hs]
        simp only [hp, hm, if_false, hpu, decide_False]
        rw [if_neg (by omega), if_neg (by simp), hw, hv]
        simp
    · unfold strconv.ParseInt
      rw [hs]
      have hm : ¬ ('+' : Char) = '-' := by decide
      simp only [if_true, hm, hpu, decide_False]
      rw [if_neg (by omega), if_neg (by simp), hw, hv]
      simp
  · have hpu := ParseUint_complete hne hall (by omega)
    unfold strconv.ParseInt
    rw [hs]
    have hp : ¬ ('-' : Char) = '+' := by decide
    simp only [if_true, hp, if_false, hpu, decide_True]
    rw [if_neg (by simp), if_neg (by omega), hv]
    have hw : wrapInt64 (-wrapInt64 (decimalValue digits 0 : Int)) =
        -(decimalValue digits 0 : Int) := by
      unfold wrapInt64
      omega
    rw [hw]

/-- `ParseInt` accepts exactly the decimal writings of the `int64` integers. -/
theorem ParseInt_iff (s : String) (v : Int) :
    strconv.ParseInt s = .ok v ↔ IsInt64Text s v :=
  ⟨ParseInt_ok, ParseInt_complete⟩

theorem IsInt64Text_range {s : String} {v : Int} (h : IsInt64Text s v) :
    -2 ^ 63 ≤ v ∧ v ≤ maxInt64 := by
  obtain ⟨digits, _, _, h⟩ := h
  unfold maxInt64
  rcases h with ⟨_, hv, hlt⟩ | ⟨_, hv, hle⟩ <;> omega

/-- What a returning `mountFile` has seen and stored. -/
theorem mountFile_ret_inv {net : Client} {url : String} {hf : httpFile}
    (h : mountFile net url = .ret hf) :
    ∃ rsp, Client.Get net url = .ok rsp ∧ rsp.Header.Get "Accept-Ranges" = "bytes" ∧
      strconv.ParseInt (rsp.Header.Get "Content-Length") = .ok hf.size ∧
      hf.url = url ∧ hf.client = net := by
  unfold mountFile at h
  split at h
  · simp at h
  · rename_i rsp hget
    split at h
    · simp at h
    · rename_i har
      split at h
      · simp at h
      · rename_i n hp
        simp only [Outcome.ret.injEq] at h
        subst h
        exact ⟨rsp, hget, by simpa using har, hp, rfl, rfl⟩

theorem mountFile_ret_of {net : Client} {url : String} {rsp : Response} {n : Int}
    (hget : Client.Get net url = .ok rsp) (har : rsp.Header.Get "Accept-Ranges" = "bytes")
    (hp : strconv.ParseInt (rsp.Header.Get "Content-Length") = .ok n) :
    mountFile net url = .ret ⟨url, n, net⟩ := by
  unfold mountFile
  rw [hget]
  simp only [har, ne_eq, not_true_eq_false, if_false, hp]

/-- `Getattr` on a file of non-negative size: no wrap-around, and the block count is
the least number of blocks that hold the size. -/
theorem Getattr_nonneg (hf : httpFile) (now : Int) (out : AttrOut)
    (h0 : 0 ≤ hf.size) (h1 : hf.size ≤ maxInt64) :
    ((hf.Getattr now out).1.Size : Int) = hf.size ∧
    (hf.Getattr now out).1.Blocks = ((hf.Getattr now out).1.Size + 131071) / 131072 := by
  unfold maxInt64 at h1
  have hs : (toUint64 hf.size : Int) = hf.size := by
    unfold toUint64
    omega
  have hlt : toUint64 hf.size < 2 ^ 63 := by omega
  refine ⟨hs, ?_⟩
  simp only [httpFile.Getattr, bs]
  omega

/-! ## The claims -/

/-- C9: `httpFile.Getattr` never fails (errno 0) and, whatever the size of the file, the
time and the record it fills, reports link count 1, mode `07777` (which contains the
read and execute bits `0555` of owner, group and others) and block size 131072, a power
of two (`2^17`) equal to the `MaxReadAhead` that `main` configures. -/
theorem Getattr_fixed_attributes (hf : httpFile) (now : Int) (out : AttrOut) (debug : Bool) :
    (hf.Getattr now out).2 = 0 ∧
    (hf.Getattr now out).1.Nlink = 1 ∧
    (hf.Getattr now out).1.Mode = 0o7777 ∧
    (hf.Getattr now out).1.Mode &&& 0o555 = 0o555 ∧
    (hf.Getattr now out).1.Blksize = 131072 ∧
    (hf.Getattr now out).1.Blksize = 2 ^ 17 ∧
    (hf.Getattr now out).1.Blksize = (mainOptions debug).MaxReadAhead := by
  refine ⟨rfl, rfl, rfl, ?_, ?_, ?_, ?_⟩ <;> simp only [httpFile.Getattr, bs, mainOptions] <;>
    decide

/-- C3 (as stated, refuted): the probe answer `Accept-Ranges: bytes`,
`Content-Length: -1` mounts a file of size -1, for which `Getattr` reports
`Size = 2^64 - 1` (not the integer value -1 of the header) and `Blocks = 0`
(not the least `n` with `n * 131072 >= Size`). -/
theorem Getattr_negative_length_counterexample :
    (mountFile (headerOrigin ["bytes"] ["-1"]) "http://origin/test.iso").returned = true ∧
    mountFile (headerOrigin ["bytes"] ["-1"]) "http://origin/test.iso" =
      .ret ⟨"http://origin/test.iso", -1, headerOrigin ["bytes"] ["-1"]⟩ ∧
    ((⟨"http://origin/test.iso", -1, headerOrigin ["bytes"] ["-1"]⟩ : httpFile).Getattr
      0 AttrOut.zero).1.Size = 18446744073709551615 ∧
    ((⟨"http://origin/test.iso", -1, headerOrigin ["bytes"] ["-1"]⟩ : httpFile).Getattr
      0 AttrOut.zero).1.Blocks = 0 ∧
    ¬ (18446744073709551615 ≤ 0 * 131072) := by
  refine ⟨by decide, rfl, by decide, by decide, by decide⟩

/-- C3 (amended): for every probe on which `mountFile` succeeds with a non-negative
content length, the `Size` that `Getattr` reports is the integer written in the
`Content-Length` header of the probed response, and `Blocks` is `ceil(Size / 131072)`:
it equals `(Size + 131071) / 131072` and is the least `n` with `n * 131072 >= Size`. -/
theorem Getattr_size_blocks (net : Client) (url : String) (hf : httpFile) (now : Int)
    (out : AttrOut) (hm : mountFile net url = .ret hf) (hnn : 0 ≤ hf.size) :
    ∃ rsp, Client.Get net url = .ok rsp ∧
      IsInt64Text (rsp.Header.Get "Content-Length") ((hf.Getattr now out).1.Size : Int) ∧
      (hf.Getattr now out).1.Blocks = ((hf.Getattr now out).1.Size + 131071) / 131072 ∧
      (hf.Getattr now out).1.Size ≤ (hf.Getattr now out).1.Blocks * 131072 ∧
      (∀ n : Nat, (hf.Getattr now out).1.Size ≤ n * 131072 →
        (hf.Getattr now out).1.Blocks ≤ n) := by
  obtain ⟨rsp, hget, _, hp, _, _⟩ := mountFile_ret_inv hm
  have htxt := ParseInt_ok hp
  obtain ⟨hsz, hbl⟩ := Getattr_nonneg hf now out hnn (IsInt64Text_range htxt).2
  refine ⟨rsp, hget, by rw [hsz]; exact htxt, hbl, ?_, ?_⟩
  · rw [hbl]; omega
  · intro n hn; rw [hbl]; omega

/-- Witness of C3 (amended): the probe answer `Content-Length: 131073` gives size
131073 and 2 blocks. -/
theorem Getattr_size_blocks_witness :
    ∃ rsp, Client.Get (headerOrigin ["bytes"] ["131073"]) "http://origin/test.iso" = .ok rsp ∧
      IsInt64Text (rsp.Header.Get "Content-Length")
        (((⟨"http://origin/test.iso", 131073, headerOrigin ["bytes"] ["131073"]⟩ : httpFile).Getattr
          0 AttrOut.zero).1.Size : Int) ∧
      ((⟨"http://origin/test.iso", 131073, headerOrigin ["bytes"] ["131073"]⟩ : httpFile).Getattr
          0 AttrOut.zero).1.Blocks =
        (((⟨"http://origin/test.iso", 131073, headerOrigin ["bytes"] ["131073"]⟩ : httpFile).Getattr
          0 AttrOut.zero).1.Size + 131071) / 131072 ∧
      ((⟨"http://origin/test.iso", 131073, headerOrigin ["bytes"] ["131073"]⟩ : httpFile).Getattr
          0 AttrOut.zero).1.Size ≤
        ((⟨"http://origin/test.iso", 131073, headerOrigin ["bytes"] ["131073"]⟩ : httpFile).Getattr
          0 AttrOut.zero).1.Blocks * 131072 ∧
      (∀ n : Nat,
        ((⟨"http://origin/test.iso", 131073, headerOrigin ["bytes"] ["131073"]⟩ : httpFile).Getattr
          0 AttrOut.zero).1.Size ≤ n * 131072 →
        ((⟨"http://origin/test.iso", 131073, headerOrigin ["bytes"] ["131073"]⟩ : httpFile).Getattr
          0 AttrOut.zero).1.Blocks ≤ n) :=
  Getattr_size_blocks (headerOrigin ["bytes"] ["131073"]) "http://origin/test.iso"
    ⟨"http://origin/test.iso", 131073, headerOrigin ["bytes"] ["131073"]⟩ 0 AttrOut.zero
    rfl (by decide)

/-- C6 (as stated, refuted): with `Accept-Ranges: bytes`, the text `-1` in
`Content-Length` produces a mounted file, whose stored size is -1 and so not `>= 0`;
the text `+5` produces a mounted file too (of size 5). -/
theorem mountFile_negative_length_counterexample :
    mountFile (headerOrigin ["bytes"] ["-1"]) "http://origin/test.iso" =
      .ret ⟨"http://origin/test.iso", -1, headerOrigin ["bytes"] ["-1"]⟩ ∧
    ¬ (0 ≤ (⟨"http://origin/test.iso", -1, headerOrigin ["bytes"] ["-1"]⟩ : httpFile).size) ∧
    mountFile (headerOrigin ["bytes"] ["+5"]) "http://origin/test.iso" =
      .ret ⟨"http://origin/test.iso", 5, headerOrigin ["bytes"] ["+5"]⟩ := by
  refine ⟨rfl, by decide, rfl⟩

/-- C6 (amended): `mountFile` returns a file exactly when the probe was answered, the
`Accept-Ranges` header of the answer equals `bytes`, and its `Content-Length` header is
the decimal writing, with an optional sign `+` or `-`, of an integer of the `int64`
range; the file then has the probed URL, that integer as its size and the probing
client.  The stored size therefore lies in `[-2^63, 2^63 - 1]` (it can be negative). -/
theorem mountFile_ret_iff (net : Client) (url : String) (hf : httpFile) :
    (mountFile net url = .ret hf ↔
      ∃ rsp, Client.Get net url = .ok rsp ∧ rsp.Header.Get "Accept-Ranges" = "bytes" ∧
        IsInt64Text (rsp.Header.Get "Content-Length") hf.size ∧
        hf.url = url ∧ hf.client = net) ∧
    (mountFile net url = .ret hf → -2 ^ 63 ≤ hf.size ∧ hf.size ≤ maxInt64) := by
  have fwd : mountFile net url = .ret hf →
      ∃ rsp, Client.Get net url = .ok rsp ∧ rsp.Header.Get "Accept-Ranges" = "bytes" ∧
        IsInt64Text (rsp.Header.Get "Content-Length") hf.size ∧
        hf.url = url ∧ hf.client = net := by
    intro h
    obtain ⟨rsp, hget, har, hp, hu, hc⟩ := mountFile_ret_inv h
    exact ⟨rsp, hget, har, ParseInt_ok hp, hu, hc⟩
  refine ⟨⟨fwd, ?_⟩, ?_⟩
  · rintro ⟨rsp, hget, har, htxt, hu, hc⟩
    rw [mountFile_ret_of hget har (ParseInt_complete htxt)]
    cases hf
    simp only at hu hc
    rw [hu, hc]
  · intro h
    obtain ⟨rsp, _, _, htxt, _, _⟩ := fwd h
    exact IsInt64Text_range htxt

/-- C5: when the probe is answered and the `Accept-Ranges` header of the answer is
absent (read as the empty string) or differs from the exact string `bytes`, `mountFile`
ends the process with "server does not accept range bytes" whatever `Content-Length`
is, and so does `HttpRoot.OnAdd`: it does not return, hence no child is created or
registered. -/
theorem mountFile_rejects_without_accept_ranges (r : HttpRoot) (net : Client) (rsp : Response)
    (hget : Client.Get net r.url = .ok rsp)
    (har : rsp.Header.Get "Accept-Ranges" ≠ "bytes") :
    mountFile net r.url = .fatal "server does not accept range bytes" ∧
    r.OnAdd net = .fatal "server does not accept range bytes" ∧
    (r.OnAdd net).returned = false ∧
    ∀ r2 : HttpRoot, r.OnAdd net ≠ .ret r2 := by
  have hm : mountFile net r.url = .fatal "server does not accept range bytes" := by
    unfold mountFile
    rw [hget]
    simp only [har, ne_eq, not_false_eq_true, if_true]
  have ho : r.OnAdd net = .fatal "server does not accept range bytes" := by
    unfold HttpRoot.OnAdd
    rw [hm]
  refine ⟨hm, ho, by rw [ho]; rfl, ?_⟩
  intro r2 h
  rw [ho] at h
  cases h

/-- Witness of C5: the answers `Accept-Ranges: Bytes` with `Content-Length: 100`. -/
theorem mountFile_rejects_without_accept_ranges_witness :
    mountFile (headerOrigin ["Bytes"] ["100"]) "http://origin/test.iso" =
      .fatal "server does not accept range bytes" ∧
    (⟨"http://origin/test.iso", []⟩ : HttpRoot).OnAdd (headerOrigin ["Bytes"] ["100"]) =
      .fatal "server does not accept range bytes" ∧
    ((⟨"http://origin/test.iso", []⟩ : HttpRoot).OnAdd
      (headerOrigin ["Bytes"] ["100"])).returned = false ∧
    ∀ r2 : HttpRoot,
      (⟨"http://origin/test.iso", []⟩ : HttpRoot).OnAdd (headerOrigin ["Bytes"] ["100"]) ≠
        .ret r2 :=
  mountFile_rejects_without_accept_ranges ⟨"http://origin/test.iso", []⟩
    (headerOrigin ["Bytes"] ["100"])
    ⟨200, fun k => if k = "Accept-Ranges" then ["Bytes"]
                   else if k = "Content-Length" then ["100"] else [], .ok []⟩
    rfl (by decide)

/-- C4: when the ranged read is answered with a status other than 206, `Read` ends in
the protocol failure "status code was not partial content: <status>" and returns
nothing, in particular no part of the body; and whenever `Read` returns data, the
status was exactly 206 and the data is the body of that answer. -/
theorem Read_requires_partial_content (hf : httpFile) (destLen : Nat) (off : Int)
    (resp : Response) (hdo : hf.client (hf.readRequest destLen off) = .ok resp) :
    (resp.StatusCode ≠ 206 →
      hf.Read destLen off = .fatal (sprintfStatus resp.StatusCode) ∧
      (hf.Read destLen off).returned = false) ∧
    (∀ (data : List Byte) (errno : Errno), hf.Read destLen off = .ret (data, errno) →
      resp.StatusCode = 206 ∧ resp.Body = .ok data) := by
  unfold httpFile.Read
  rw [hdo]
  constructor
  · intro hne
    simp only [hne, ne_eq, not_false_eq_true, if_true, Outcome.returned, and_self]
  · intro data errno h
    simp only at h
    split at h
    · simp at h
    · rename_i hst
      split at h
      · simp at h
      · rename_i bytes hb
        simp only [Outcome.ret.injEq, Prod.mk.injEq] at h
        refine ⟨by simpa using hst, ?_⟩
        rw [hb, h.1]

/-- Witness of C4: a read of the first byte on an origin that ignores the range and
answers 200. -/
theorem Read_requires_partial_content_witness :
    (((200 : Int) ≠ 206 →
      (⟨"http://origin/test.iso", 2, headerOrigin ["bytes"] ["2"]⟩ : httpFile).Read 1 0 =
        .fatal (sprintfStatus 200) ∧
      ((⟨"http://origin/test.iso", 2, headerOrigin ["bytes"] ["2"]⟩ : httpFile).Read 1 0).returned
        = false) ∧
    (∀ (data : List Byte) (errno : Errno),
      (⟨"http://origin/test.iso", 2, headerOrigin ["bytes"] ["2"]⟩ : httpFile).Read 1 0 =
        .ret (data, errno) →
      (200 : Int) = 206 ∧ (Except.ok [] : Except String (List Byte)) = .ok data)) :=
  Read_requires_partial_content ⟨"http://origin/test.iso", 2, headerOrigin ["bytes"] ["2"]⟩ 1 0
    ⟨200, fun k => if k = "Accept-Ranges" then ["bytes"]
                   else if k = "Content-Length" then ["2"] else [], .ok []⟩ rfl

/-- C8 (as stated, refuted): on a transport failure ("connection reset") `Read` does
not return an error result to its caller: the outcome is the termination of the
process by `log.Fatal`. -/
theorem Read_transport_failure_counterexample :
    (⟨"http://origin/test.iso", 2, brokenOrigin "connection reset"⟩ : httpFile).Read 1 0 =
      .fatal "connection reset" ∧
    ((⟨"http://origin/test.iso", 2, brokenOrigin "connection reset"⟩ : httpFile).Read 1 0).returned
      = false := by
  decide

/-- C8 (amended): when the exchange of a read fails at the transport level (`Do`
returns an error, or the answer has status 206 and reading its body fails), `Read`
does not return to its caller: the process is terminated by `log.Fatal` with the text
of the error, as it is (with the text "status code was not partial content: <status>")
for a status other than 206.  `Read` has no error result: whenever it returns, the
errno is 0. -/
theorem Read_transport_failure_fatal (hf : httpFile) (destLen : Nat) (off : Int) (err : String)
    (hfail : hf.client (hf.readRequest destLen off) = .error err ∨
      ∃ resp, hf.client (hf.readRequest destLen off) = .ok resp ∧
        resp.StatusCode = 206 ∧ resp.Body = .error err) :
    hf.Read destLen off = .fatal err ∧
    (hf.Read destLen off).returned = false ∧
    (∀ (hf2 : httpFile) (destLen2 : Nat) (off2 : Int) (resp : Response),
      hf2.client (hf2.readRequest destLen2 off2) = .ok resp → resp.StatusCode ≠ 206 →
      hf2.Read destLen2 off2 = .fatal (sprintfStatus resp.StatusCode)) ∧
    (∀ (hf2 : httpFile) (destLen2 : Nat) (off2 : Int) (data : List Byte) (errno : Errno),
      hf2.Read destLen2 off2 = .ret (data, errno) → errno = 0) := by
  have h1 : hf.Read destLen off = .fatal err := by
    unfold httpFile.Read
    rcases hfail with h | ⟨resp, h, hst, hb⟩
    · rw [h]
    · rw [h]
      simp only [hst, ne_eq, not_true_eq_false, if_false, hb]
  refine ⟨h1, by rw [h1]; rfl, ?_, ?_⟩
  · intro hf2 destLen2 off2 resp hdo hne
    unfold httpFile.Read
    rw [hdo]
    simp only [hne, ne_eq, not_false_eq_true, if_true]
  · intro hf2 destLen2 off2 data errno h
    unfold httpFile.Read at h
    split at h
    · simp at h
    · split at h
      · simp at h
      · split at h
        · simp at h
        · simp only [Outcome.ret.injEq, Prod.mk.injEq] at h
          exact h.2.symm

/-- Witness of C8 (amended): a read on an origin whose every exchange times out. -/
theorem Read_transport_failure_fatal_witness :
    (⟨"http://origin/test.iso", 2, brokenOrigin "timeout"⟩ : httpFile).Read 1 0 =
      .fatal "timeout" ∧
    ((⟨"http://origin/test.iso", 2, brokenOrigin "timeout"⟩ : httpFile).Read 1 0).returned
      = false ∧
    (∀ (hf2 : httpFile) (destLen2 : Nat) (off2 : Int) (resp : Response),
      hf2.client (hf2.readRequest destLen2 off2) = .ok resp → resp.StatusCode ≠ 206 →
      hf2.Read destLen2 off2 = .fatal (sprintfStatus resp.StatusCode)) ∧
    (∀ (hf2 : httpFile) (destLen2 : Nat) (off2 : Int) (data : List Byte) (errno : Errno),
      hf2.Read destLen2 off2 = .ret (data, errno) → errno = 0) :=
  Read_transport_failure_fatal ⟨"http://origin/test.iso", 2, brokenOrigin "timeout"⟩ 1 0
    "timeout" (Or.inl rfl)

/-- C10 (as stated, refuted): at `offset = size` (size 2, length 1) the header is
`bytes=2-1`, whose first position 2 exceeds its last position 1; with length 0 (size 2,
offset 0) it is `bytes=0--1`, no interval at all; and when `offset + length` exceeds
`2^63 - 1` (size `2^63 - 1`, offset `2^63 - 2`, length 2) the sum wraps around and the
header ends at position `2^63 - 1`, beyond `size - 1`, instead of at
`min(offset + length, size) - 1 = 2^63 - 2`. -/
theorem readRange_counterexample :
    ((fileOn [10, 20] 2).readRange 1 2 = "bytes=2-1" ∧
      parseRange "bytes=2-1" = some (2, 1) ∧ ¬ (2 ≤ 1)) ∧
    ((fileOn [10, 20] 2).readRange 0 0 = "bytes=0--1" ∧ parseRange "bytes=0--1" = none) ∧
    ((fileOn bigContent 9223372036854775807).readRange 2 9223372036854775806 =
        "bytes=9223372036854775806-9223372036854775807" ∧
      (fileOn bigContent 9223372036854775807).readRange 2 9223372036854775806 ≠
        "bytes=" ++ fmtD 9223372036854775806 ++ "-" ++
          fmtD (min (9223372036854775806 + 2) 9223372036854775807 - 1)) := by
  decide

/-- C10 (amended): for `0 <= offset <= size` and a length with
`offset + length <= 2^63 - 1` (the `int64` sum does not wrap), the `Range` header that
`Read` sends is exactly `bytes=<offset>-<clamped_end - 1>` in decimal, with
`clamped_end = min(offset + length, size)`; when moreover `offset < size` and
`length >= 1`, the header denotes a non-empty inclusive interval
(`offset <= clamped_end - 1`) inside `[0, size - 1]` that covers exactly
`min(length, size - offset)` bytes. -/
theorem readRange_clamped (hf : httpFile) (destLen : Nat) (off : Int) (h0 : 0 ≤ off)
    (hsz : off ≤ hf.size) (hsum : off + destLen ≤ maxInt64) :
    hf.readRange destLen off =
      "bytes=" ++ fmtD off ++ "-" ++ fmtD (min (off + destLen) hf.size - 1) ∧
    (off < hf.size → 1 ≤ destLen →
      off ≤ min (off + destLen) hf.size - 1 ∧
      0 ≤ off ∧ min (off + destLen) hf.size - 1 ≤ hf.size - 1 ∧
      (min (off + destLen) hf.size - 1) - off + 1 = min (destLen : Int) (hf.size - off)) := by
  constructor
  · rw [readRange_eq, readEnd_eq_min hf destLen off h0 hsum]
    have hw : wrapInt64 (min (off + destLen) hf.size - 1) = min (off + destLen) hf.size - 1 := by
      unfold maxInt64 at hsum
      apply wrapInt64_of_range <;> omega
    rw [hw]
    rfl
  · intro hlt hlen
    omega

/-- Witness of C10 (amended): size 1000000, offset 999900, length 200. -/
theorem readRange_clamped_witness :
    (fileOn [] 1000000).readRange 200 999900 =
      "bytes=" ++ fmtD 999900 ++ "-" ++
        fmtD (min ((999900 : Int) + (200 : Nat)) (fileOn [] 1000000).size - 1) ∧
    ((999900 : Int) < (fileOn [] 1000000).size → 1 ≤ 200 →
      (999900 : Int) ≤ min ((999900 : Int) + (200 : Nat)) (fileOn [] 1000000).size - 1 ∧
      (0 : Int) ≤ 999900 ∧
      min ((999900 : Int) + (200 : Nat)) (fileOn [] 1000000).size - 1 ≤
        (fileOn [] 1000000).size - 1 ∧
      (min ((999900 : Int) + (200 : Nat)) (fileOn [] 1000000).size - 1) - 999900 + 1 =
        min ((200 : Nat) : Int) ((fileOn [] 1000000).size - 999900)) :=
  readRange_clamped (fileOn [] 1000000) 200 999900 (by decide) (by decide) (by decide)

/-- The slice a clamped read asks for is the requested window of the content. -/
theorem slice_clamped (content : List Byte) (off destLen : Nat) (hoff : off < content.length)
    (hlen : 1 ≤ destLen) :
    slice content off (min (off + destLen) content.length - 1) =
      (content.drop off).take destLen := by
  unfold slice
  rw [List.take_eq_take]
  simp only [List.length_drop]
  omega

/-- The outcome of a read of a non-empty window inside the content on a conforming
origin. -/
theorem Read_conforming (hf : httpFile) (content : List Byte) (destLen off : Nat)
    (hsize : hf.size = content.length)
    (hconf : Conforming hf.client hf.url content)
    (hoff : off < content.length) (hlen : 1 ≤ destLen)
    (hsum : (off : Int) + destLen ≤ maxInt64) :
    hf.Read destLen off = .ret ((content.drop off).take destLen, 0) := by
  have hend := readEnd_eq_min hf destLen off (by omega) hsum
  have hlast : wrapInt64 (hf.readEnd destLen off - 1) =
      ((min (off + destLen) content.length - 1 : Nat) : Int) := by
    rw [hend, hsize]
    unfold maxInt64 at hsum
    rw [wrapInt64_of_range (by omega) (by omega)]
    omega
  obtain ⟨resp, hdo, hst, hbody⟩ :=
    hconf off (min (off + destLen) content.length - 1) (by omega) (by omega)
  unfold httpFile.Read
  rw [readRequest_eq, hlast, hdo]
  simp only [hst, ne_eq, not_true_eq_false, if_false, hbody]
  rw [slice_clamped content off destLen hoff hlen]

/-! ### The origin `rangeOrigin` conforms -/

theorem digitChar_spec : ∀ k, k < 10 →
    ((Nat.digitChar k).toNat = 48 + k ∧ (Nat.digitChar k).isDigit = true) := by
  decide

theorem toDigitsCore_append (fuel : Nat) : ∀ (n : Nat) (ds : List Char),
    Nat.toDigitsCore 10 fuel n ds = Nat.toDigitsCore 10 fuel n [] ++ ds := by
  induction fuel with
  | zero => intro n ds; simp [Nat.toDigitsCore]
  | succ fuel ih =>
    intro n ds
    simp only [Nat.toDigitsCore]
    split
    · simp
    · rw [ih (n / 10) (Nat.digitChar (n % 10) :: ds), ih (n / 10) [Nat.digitChar (n % 10)]]
      simp

theorem decimalValue_append (p q : List Char) (n : Nat) :
    decimalValue (p ++ q) n = decimalValue q (decimalValue p n) := by
  simp [decimalValue, List.foldl_append]

/-- The decimal digits of `n`: all digits, at least one, of value `n`. -/
theorem toDigitsCore_spec (fuel : Nat) : ∀ n : Nat, n < fuel →
    (∀ c ∈ Nat.toDigitsCore 10 fuel n [], c.isDigit = true) ∧
    Nat.toDigitsCore 10 fuel n [] ≠ [] ∧
    decimalValue (Nat.toDigitsCore 10 fuel n []) 0 = n := by
  induction fuel with
  | zero => intro n h; omega
  | succ fuel ih =>
    intro n hn
    obtain ⟨hd1, hd2⟩ := digitChar_spec (n % 10) (Nat.mod_lt n (by norm_num))
    simp only [Nat.toDigitsCore]
    split
    · rename_i hz
      refine ⟨?_, by simp, ?_⟩
      · intro c hc
        simp only [List.mem_singleton] at hc
        rw [hc]; exact hd2
      · rw [decimalValue_cons]
        simp [decimalValue, hd1]
        omega
    · rename_i hz
      obtain ⟨h1, h2, h3⟩ := ih (n / 10) (by omega)
      rw [toDigitsCore_append]
      refine ⟨?_, by simp, ?_⟩
      · intro c hc
        rcases List.mem_append.mp hc with hc | hc
        · exact h1 c hc
        · simp only [List.mem_singleton] at hc
          rw [hc]; exact hd2
      · rw [decimalValue_append, h3, decimalValue_cons]
        simp [decimalValue, hd1]
        omega

theorem toDigits_spec (n : Nat) :
    (∀ c ∈ Nat.toDigits 10 n, c.isDigit = true) ∧ Nat.toDigits 10 n ≠ [] ∧
    decimalValue (Nat.toDigits 10 n) 0 = n :=
  toDigitsCore_spec (n + 1) n (Nat.lt_succ_self n)

theorem parseDigits_toDigits (n : Nat) : parseDigits (Nat.toDigits 10 n) = some n := by
  obtain ⟨h1, h2, h3⟩ := toDigits_spec n
  unfold parseDigits
  rw [if_neg, h3]
  simp only [h2, false_or, not_not, List.all_eq_true]
  exact h1

/-- Reading back the header `Read` writes for two natural positions. -/
theorem parseRange_sprintfRange (a b : Nat) : parseRange (sprintfRange a b) = some (a, b) := by
  obtain ⟨ha, _, _⟩ := toDigits_spec a
  have hdata : (sprintfRange a b).toList =
      'b' :: 'y' :: 't' :: 'e' :: 's' :: '=' :: (Nat.toDigits 10 a ++ '-' :: Nat.toDigits 10 b) := by
    have e1 : fmtD (a : Int) = String.mk (Nat.toDigits 10 a) := rfl
    have e2 : fmtD (b : Int) = String.mk (Nat.toDigits 10 b) := rfl
    have e3 : ("bytes=" : String).data = ['b', 'y', 't', 'e', 's', '='] := rfl
    have e4 : ("-" : String).data = ['-'] := rfl
    unfold sprintfRange
    rw [e1, e2]
    simp only [String.toList, String.data_append, e3, e4, List.append_assoc, List.cons_append,
      List.nil_append]
  have hminus : ¬ Char.isDigit '-' = true := by decide
  unfold parseRange
  rw [hdata]
  simp only [List.span_eq_take_drop, List.takeWhile_append_of_pos ha,
    List.dropWhile_append_of_pos ha, List.takeWhile_cons_of_neg hminus,
    List.dropWhile_cons_of_neg hminus, List.append_nil, parseDigits_toDigits]

/-- The origin `rangeOrigin content` conforms, whatever the content and the URL. -/
theorem rangeOrigin_conforming (content : List Byte) (url : String) :
    Conforming (rangeOrigin content) url content := by
  intro a b hab hb
  refine ⟨⟨206, Header.empty, .ok (slice content a b)⟩, ?_, rfl, rfl⟩
  have hget : (rangeRequest url a b).Header.Get "Range" = sprintfRange a b := by
    simp [rangeRequest, NewRequest, Header.Get, Header.Set]
  unfold rangeOrigin
  rw [hget, parseRange_sprintfRange]
  simp only [hab, if_true, show a < content.length by omega]
  rw [show min b (content.length - 1) = b by omega]

/-- At or after the end of the file the request does not depend on the length. -/
theorem readRequest_past_end (hf : httpFile) (destLen : Nat) (off : Int)
    (h0 : 0 ≤ off) (hpast : hf.size ≤ off) (hsum : off + destLen ≤ maxInt64) :
    hf.readRequest destLen off = rangeRequest hf.url off (wrapInt64 (hf.size - 1)) := by
  rw [readRequest_eq, readEnd_eq_min hf destLen off h0 hsum]
  rw [show min (off + (destLen : Int)) hf.size = hf.size by omega]

theorem bigContent_length : bigContent.length = 9223372036854775807 := by
  unfold bigContent
  exact List.length_replicate _ _

/-- A header that is no range is ignored by `rangeOrigin`. -/
theorem rangeOrigin_ignores (content : List Byte) (req : Request)
    (h : parseRange (req.Header.Get "Range") = none) :
    rangeOrigin content req = .ok ⟨200, Header.empty, .ok content⟩ := by
  unfold rangeOrigin
  rw [h]

/-- A status other than 206 ends the read in the protocol failure. -/
theorem Read_status_ne (hf : httpFile) (destLen : Nat) (off : Int) (resp : Response)
    (hdo : hf.client (hf.readRequest destLen off) = .ok resp) (hne : resp.StatusCode ≠ 206) :
    hf.Read destLen off = .fatal (sprintfStatus resp.StatusCode) := by
  unfold httpFile.Read
  rw [hdo]
  simp only [hne, ne_eq, not_false_eq_true, if_true]

/-- On `2^63 - 1` bytes, a read of 5 bytes at offset `2^63 - 3`: the sum wraps, the
header is no range and the answer is 200. -/
theorem Read_wrapped_sum :
    (fileOn bigContent 9223372036854775807).Read 5 9223372036854775805 =
      .fatal "status code was not partial content: 200" :=
  Read_status_ne (fileOn bigContent 9223372036854775807) 5 9223372036854775805
    ⟨200, Header.empty, .ok bigContent⟩
    (rangeOrigin_ignores bigContent
      ((fileOn bigContent 9223372036854775807).readRequest 5 9223372036854775805) (by decide))
    (by decide)

/-! ## The claims on reads -/

/-- C1 (as stated, refuted): on the two-byte content `[10, 20]` served by an origin
that conforms to the range protocol, a read of length 0 at offset 0 (which is below
the size 2) sends `Range: bytes=0--1`, is answered 200 and ends the process instead of
returning zero bytes without error.  And on a content of `2^63 - 1` bytes, a read of
length 5 at offset `2^63 - 3` (below the size) computes an `int64` sum that wraps
around, sends `Range: bytes=9223372036854775805--9223372036854775807` and ends the
same way instead of returning 2 bytes. -/
theorem Read_zero_length_counterexample :
    (Conforming (fileOn [10, 20] 2).client (fileOn [10, 20] 2).url [10, 20] ∧
      (fileOn [10, 20] 2).size = (([10, 20] : List Byte).length : Int) ∧
      (fileOn [10, 20] 2).readRange 0 0 = "bytes=0--1" ∧
      (fileOn [10, 20] 2).Read 0 0 = .fatal "status code was not partial content: 200" ∧
      ((fileOn [10, 20] 2).Read 0 0).returned = false) ∧
    (Conforming (fileOn bigContent 9223372036854775807).client
        (fileOn bigContent 9223372036854775807).url bigContent ∧
      (fileOn bigContent 9223372036854775807).size = (bigContent.length : Int) ∧
      (9223372036854775805 : Int) < (fileOn bigContent 9223372036854775807).size ∧
      (fileOn bigContent 9223372036854775807).readRange 5 9223372036854775805 =
        "bytes=9223372036854775805--9223372036854775807" ∧
      (fileOn bigContent 9223372036854775807).Read 5 9223372036854775805 =
        .fatal "status code was not partial content: 200") :=
  ⟨⟨rangeOrigin_conforming [10, 20] "http://origin/test.iso", by decide, by decide, by decide,
      by decide⟩,
    ⟨rangeOrigin_conforming bigContent "http://origin/test.iso",
      by rw [bigContent_length]; rfl, by decide, by decide, Read_wrapped_sum⟩⟩

/-- C1 (amended): for a file whose size is the length of the content, an origin that
answers every range inside the content with status 206 and exactly the bytes asked
for, every offset below the size and every length `>= 1` with
`offset + length <= 2^63 - 1`, `Read` returns without error (errno 0) the bytes of the
content that start at the offset: `min(length, size - offset)` bytes, the `i`-th of
which is byte `offset + i` of the content. -/
theorem Read_correct (hf : httpFile) (content : List Byte) (destLen off : Nat)
    (hsize : hf.size = content.length)
    (hconf : Conforming hf.client hf.url content)
    (hoff : off < content.length) (hlen : 1 ≤ destLen)
    (hsum : (off : Int) + destLen ≤ maxInt64) :
    hf.Read destLen off = .ret ((content.drop off).take destLen, 0) ∧
    ((content.drop off).take destLen).length = min destLen (content.length - off) ∧
    ∀ i : Nat, i < min destLen (content.length - off) →
      ((content.drop off).take destLen)[i]? = content[off + i]? := by
  refine ⟨Read_conforming hf content destLen off hsize hconf hoff hlen hsum, by simp, ?_⟩
  intro i hi
  rw [List.getElem?_take_of_lt (by omega), List.getElem?_drop]

/-- Witness of C1 (amended): three bytes `[10, 20, 30]`, a read of 5 bytes at offset 1
returns `[20, 30]`. -/
theorem Read_correct_witness :
    (fileOn [10, 20, 30] 3).Read 5 (1 : Nat) =
      .ret ((([10, 20, 30] : List Byte).drop 1).take 5, 0) ∧
    ((([10, 20, 30] : List Byte).drop 1).take 5).length =
      min 5 (([10, 20, 30] : List Byte).length - 1) ∧
    ∀ i : Nat, i < min 5 (([10, 20, 30] : List Byte).length - 1) →
      ((([10, 20, 30] : List Byte).drop 1).take 5)[i]? = ([10, 20, 30] : List Byte)[1 + i]? :=
  Read_correct (fileOn [10, 20, 30] 3) [10, 20, 30] 5 1 (by decide)
    (rangeOrigin_conforming [10, 20, 30] "http://origin/test.iso") (by decide) (by decide)
    (by decide)

/-- C2 (the code at the failing input): on the two-byte content `[10, 20]` served by a
conforming origin, a read of one byte at `offset = size = 2` sends `Range: bytes=2-1`,
is answered 200 and ends the process instead of returning zero bytes without error. -/
theorem Read_at_end_of_file_fatal :
    Conforming (fileOn [10, 20] 2).client (fileOn [10, 20] 2).url [10, 20] ∧
    (fileOn [10, 20] 2).readRange 1 2 = "bytes=2-1" ∧
    (fileOn [10, 20] 2).Read 1 2 = .fatal "status code was not partial content: 200" ∧
    ((fileOn [10, 20] 2).Read 1 2).returned = false ∧
    (fileOn [10, 20] 2).Read 1 2 ≠ .ret ([], 0) :=
  ⟨rangeOrigin_conforming [10, 20] "http://origin/test.iso", by decide, by decide, by decide,
    by decide⟩

/-- C7 (as stated, refuted): on the two-byte content `[10, 20]` served by a conforming
origin, at offset 0 the read of length 0 ends the process while the read of length 1
succeeds with `[10]`: one call fails where the other succeeds.  And on a content of
`2^63 - 1` bytes, at offset `2^63 - 3` the read of length 1 succeeds while the read of
length 5, whose `int64` sum `offset + length` wraps around, ends the process. -/
theorem Read_lengths_disagree_counterexample :
    (Conforming (fileOn [10, 20] 2).client (fileOn [10, 20] 2).url [10, 20] ∧
      (fileOn [10, 20] 2).Read 0 0 = .fatal "status code was not partial content: 200" ∧
      (fileOn [10, 20] 2).Read 1 0 = .ret ([10], 0)) ∧
    (Conforming (fileOn bigContent 9223372036854775807).client
        (fileOn bigContent 9223372036854775807).url bigContent ∧
      (fileOn bigContent 9223372036854775807).Read 1 (9223372036854775805 : Nat) =
        .ret ((bigContent.drop 9223372036854775805).take 1, 0) ∧
      (fileOn bigContent 9223372036854775807).Read 5 (9223372036854775805 : Nat) =
        .fatal "status code was not partial content: 200") :=
  ⟨⟨rangeOrigin_conforming [10, 20] "http://origin/test.iso", by decide, by decide⟩,
    ⟨rangeOrigin_conforming bigContent "http://origin/test.iso",
      Read_conforming (fileOn bigContent 9223372036854775807) bigContent 1 9223372036854775805
        (by rw [bigContent_length]; rfl) (rangeOrigin_conforming _ _)
        (by rw [bigContent_length]; decide) (by decide) (by decide),
      Read_wrapped_sum⟩⟩

/-- C7 (amended): for a file whose size is the length of the content, a static origin
that answers every range inside the content with status 206 and exactly the bytes
asked for, every offset `>= 0` and every two lengths `1 <= length1 <= length2` with
`offset + length2 <= 2^63 - 1`: below the size both reads succeed and the result for
`length1` is a prefix of the result for `length2`; at or after the size both reads send
the same request and have the same outcome. -/
theorem Read_lengths_agree (hf : httpFile) (content : List Byte) (off l1 l2 : Nat)
    (hsize : hf.size = content.length)
    (hconf : Conforming hf.client hf.url content)
    (h1 : 1 ≤ l1) (h12 : l1 ≤ l2) (hsum : (off : Int) + l2 ≤ maxInt64) :
    (off < content.length →
      ∃ d1 d2 : List Byte, hf.Read l1 off = .ret (d1, 0) ∧ hf.Read l2 off = .ret (d2, 0) ∧
        d1 <+: d2 ∧ d1.length = min l1 (content.length - off) ∧
        d2.length = min l2 (content.length - off)) ∧
    (content.length ≤ off → hf.Read l1 off = hf.Read l2 off) := by
  have hsum1 : (off : Int) + l1 ≤ maxInt64 := by omega
  constructor
  · intro hoff
    refine ⟨(content.drop off).take l1, (content.drop off).take l2,
      Read_conforming hf content l1 off hsize hconf hoff h1 hsum1,
      Read_conforming hf content l2 off hsize hconf hoff (by omega) hsum,
      List.take_prefix_take_left _ h12, by simp, by simp⟩
  · intro hpast
    have e1 := readRequest_past_end hf l1 off (by omega) (by omega) hsum1
    have e2 := readRequest_past_end hf l2 off (by omega) (by omega) hsum
    unfold httpFile.Read
    rw [e1, e2]

/-- Witness of C7 (amended): three bytes `[10, 20, 30]`, offset 1, lengths 1 and 5. -/
theorem Read_lengths_agree_witness :
    ((1 : Nat) < ([10, 20, 30] : List Byte).length →
      ∃ d1 d2 : List Byte, (fileOn [10, 20, 30] 3).Read 1 (1 : Nat) = .ret (d1, 0) ∧
        (fileOn [10, 20, 30] 3).Read 5 (1 : Nat) = .ret (d2, 0) ∧
        d1 <+: d2 ∧ d1.length = min 1 (([10, 20, 30] : List Byte).length - 1) ∧
        d2.length = min 5 (([10, 20, 30] : List Byte).length - 1)) ∧
    (([10, 20, 30] : List Byte).length ≤ 1 →
      (fileOn [10, 20, 30] 3).Read 1 (1 : Nat) = (fileOn [10, 20, 30] 3).Read 5 (1 : Nat)) :=
  Read_lengths_agree (fileOn [10, 20, 30] 3) [10, 20, 30] 1 1 5 (by decide)
    (rangeOrigin_conforming [10, 20, 30] "http://origin/test.iso") (by decide) (by decide)
    (by decide)

end HttpMount
